import Mathlib

/-!
Verification of the `#[assert_instr]` procedural macro
(`stdsimd-test/assert-instr-macro/src/lib.rs`).

The macro is embedded shallowly: the syntactic categories it consumes
(`syn::Item`, `syn::FnArg`, `syn::Pat`, attributes) and the structured
output it emits (the re-emitted original item, the generated test
function, and the optional shim) are modelled as inductive data, and
the body of `assert_instr` is translated line by line into a total
function returning `Except` (a `panic!`/`expect` in the Rust source
becomes `Except.error` with the source's message).  Opaque token
fragments that the macro forwards verbatim (types, expressions,
attribute payloads) are modelled as strings.
-/

namespace AssertInstr

/-- Identifiers (`syn::Ident`), compared by their string contents as the
source does via `sym.as_str()`. -/
abbrev Ident := String

/-- Opaque expression tokens (`syn::Expr`): forwarded verbatim, never
inspected by the macro. -/
abbrev ExprTokens := String

/-- Opaque type tokens: the type of a captured argument and the return
type are forwarded verbatim. -/
abbrev TypeTokens := String

/-- Patterns (`syn::Pat`), restricted to what the macro distinguishes: a bare
identifier pattern versus anything else (`syn::Pat::Ident` vs the
catch-all `_` arm that panics with "must have bare arguments"). -/
inductive Pat where
  | ident (i : Ident)
  | complex (tokens : String)
deriving DecidableEq

/-- A captured binding `pat : ty` (`syn::ArgCaptured`). -/
structure ArgCaptured where
  pat : Pat
  ty : TypeTokens
deriving DecidableEq

/-- Function arguments (`syn::FnArg`): the macro distinguishes
`FnArg::Captured` from every
other kind (`self`, ignored, inferred), which panic with
"arguments must not have patterns". -/
inductive FnArg where
  | captured (c : ArgCaptured)
  | notCaptured (tokens : String)
deriving DecidableEq

/-- An attribute on the annotated function.  The macro only inspects the
identifier of the first path segment (`attr.path.segments.get(0)`); the
rest of the attribute is forwarded verbatim. -/
structure Attribute where
  seg0 : Ident
  restTokens : String
deriving DecidableEq

/-- The parts of a function item (`syn::ItemFn`) the macro reads. -/
structure ItemFn where
  attrs : List Attribute
  ident : Ident
  inputs : List FnArg
  output : TypeTokens
deriving DecidableEq

/-- Items (`syn::Item`): a function item versus any other item kind (the `_` arm
panics with "must be attached to a function"). -/
inductive Item where
  | fn (f : ItemFn)
  | notFn (tokens : String)
deriving DecidableEq

/-- The parsed attribute arguments (`struct Invoc`): the instruction
name and the ordered override list `a = e1, b = e2, ...`. -/
structure Invoc where
  instr : Ident
  args : List (Ident × ExprTokens)
deriving DecidableEq

/-- One argument of the call inside the shim body: either the override's
expression tokens (pushed as `quote! { #tts }`) or the forwarded
parameter identifier (pushed as `quote! { #ident }`). -/
inductive CallArg where
  | expr (e : ExprTokens)
  | fwd (i : Ident)
deriving DecidableEq

/-- The shim function emitted inside the generated test when the
override list is non-empty:
`#attrs unsafe fn #shim_name(#(#inputs),*) #ret { #name(#(#input_vals),*) }`. -/
structure Shim where
  attrs : List Attribute
  name : Ident
  inputs : List ArgCaptured
  ret : TypeTokens
  callee : Ident
  callArgs : List CallArg
deriving DecidableEq

/-- The generated `#[test]` function.  `ignored` records whether the
`#[ignore]` attribute is emitted; `addrTarget` and `displayTarget` are
the two uses of `test_name` in
`::stdsimd_test::assert(#test_name as usize, stringify!(#test_name), stringify!(#instr))`. -/
structure TestFn where
  ignored : Bool
  name : Ident
  shim : Option Shim
  addrTarget : Ident
  displayTarget : Ident
  instr : Ident
deriving DecidableEq

/-- One item of the output token stream: the re-emitted original item
(`#item`) followed by the generated test function (`#tts`). -/
inductive OutItem where
  | orig (i : Item)
  | test (t : TestFn)
deriving DecidableEq

/-- Prefix test on character lists, the computational content of
`str::starts_with`. -/
def isCharPrefixOf : List Char → List Char → Bool
  | [], _ => true
  | _ :: _, [] => false
  | a :: as, b :: bs => a == b && isCharPrefixOf as bs

/-- Translation of `str::starts_with`: `strStartsWith s pre` holds when
`pre` is a prefix of `s`. -/
def strStartsWith (s pre : String) : Bool :=
  isCharPrefixOf pre.data s.data

/-- Translation of `invoc.args.iter().find(|a| a.0 == ident.sym.as_str())`:
the first override whose name equals the parameter identifier. -/
def findArg (args : List (Ident × ExprTokens)) (i : Ident) :
    Option (Ident × ExprTokens) :=
  match args with
  | [] => none
  | p :: rest => if p.1 == i then some p else findArg rest i

/-- The loop over `func.decl.inputs` in `assert_instr`: validates each
argument (`FnArg::Captured` with a `Pat::Ident` pattern, else panic),
then either records the matching override's expression in `input_vals`
or pushes the captured argument to `inputs` and its identifier to
`input_vals`. -/
def processArgs (args : List (Ident × ExprTokens)) :
    List FnArg → Except String (List ArgCaptured × List CallArg)
  | [] => Except.ok ([], [])
  | a :: rest =>
    match a with
    | FnArg.notCaptured _ => Except.error "arguments must not have patterns"
    | FnArg.captured c =>
      match c.pat with
      | Pat.complex _ => Except.error "must have bare arguments"
      | Pat.ident i =>
        match processArgs args rest with
        | Except.error e => Except.error e
        | Except.ok (inputs, input_vals) =>
          match findArg args i with
          | some p => Except.ok (inputs, CallArg.expr p.2 :: input_vals)
          | none => Except.ok (c :: inputs, CallArg.fwd i :: input_vals)

/-- The body of `pub fn assert_instr`, after the two `syn::parse` calls:
given the build-mode flag (`cfg!(optimized)`), the parsed `Invoc` and the
parsed item, produce the output token stream or abort.  Every `panic!`
of the source is an `Except.error` with the source's message. -/
def assert_instr (optimized : Bool) (invoc : Invoc) (item : Item) :
    Except String (List OutItem) :=
  match item with
  | Item.notFn _ => Except.error "must be attached to a function"
  | Item.fn func =>
    let instr := invoc.instr
    let maybe_ignore := !optimized
    let name := func.ident
    let assert_name := "assert_" ++ name ++ "_" ++ instr
    let shim_name := name ++ "_shim"
    if invoc.args.length == 0 then
      Except.ok [OutItem.orig item,
        OutItem.test
          { ignored := maybe_ignore, name := assert_name, shim := none,
            addrTarget := name, displayTarget := name, instr := instr }]
    else
      match processArgs invoc.args func.inputs with
      | Except.error e => Except.error e
      | Except.ok (inputs, input_vals) =>
        let attrs := func.attrs.filter (fun a => strStartsWith a.seg0 "target")
        Except.ok [OutItem.orig item,
          OutItem.test
            { ignored := maybe_ignore, name := assert_name,
              shim := some
                { attrs := attrs, name := shim_name, inputs := inputs,
                  ret := func.output, callee := name,
                  callArgs := input_vals },
              addrTarget := shim_name, displayTarget := shim_name,
              instr := instr }]

/-- Tokens of the attribute argument list, as the `Synom` impl for
`Invoc` consumes them: identifiers, commas, `=`, and opaque expression
atoms (a `syn!(syn::Expr)` step is modelled as consuming one opaque
expression atom). -/
inductive AttrTok where
  | ident (s : String)
  | comma
  | eq
  | expr (e : ExprTokens)
deriving DecidableEq

/-- The `many0!(do_parse!(comma >> ident >> eq >> expr))` loop of the
`Synom` impl: greedily consume `, name = expr` groups, returning the
collected pairs and the unconsumed remainder. -/
def parseArgs : List AttrTok → List (Ident × ExprTokens) × List AttrTok
  | AttrTok.comma :: AttrTok.ident n :: AttrTok.eq :: AttrTok.expr e :: rest =>
    let r := parseArgs rest
    ((n, e) :: r.1, r.2)
  | ts => ([], ts)

/-- The full `Synom` parser for `Invoc`: inside the parentheses, an
identifier followed by the override loop; `syn::parse` additionally
requires that all tokens are consumed. -/
def parseInvoc (ts : List AttrTok) : Option Invoc :=
  match ts with
  | AttrTok.ident instr :: rest =>
    match parseArgs rest with
    | (args, []) => some { instr := instr, args := args }
    | _ => none
  | _ => none

/-- Rendering of a valid attribute argument list
`(instr, a = e1, b = e2, ...)` (inside the parentheses) as tokens. -/
def renderInvoc (instr : Ident) (args : List (Ident × ExprTokens)) :
    List AttrTok :=
  AttrTok.ident instr ::
    args.flatMap
      (fun p => [AttrTok.comma, AttrTok.ident p.1, AttrTok.eq, AttrTok.expr p.2])

/-- A function argument is a simple captured binding with a bare
identifier pattern. -/
def bareParam : FnArg → Bool
  | FnArg.captured c =>
    match c.pat with
    | Pat.ident _ => true
    | Pat.complex _ => false
  | FnArg.notCaptured _ => false

/-- The item is a function declaration. -/
def isFnItem : Item → Bool
  | Item.fn _ => true
  | Item.notFn _ => false

/-- The item is a function with some destructured or otherwise complex
parameter. -/
def hasNonBareParam : Item → Bool
  | Item.fn f => !(f.inputs.all bareParam)
  | Item.notFn _ => false

/-- Success test for `Except`, named locally so results of the embedding
can be inspected booleanly. -/
def isOkE {α : Type} : Except String α → Bool
  | Except.ok _ => true
  | Except.error _ => false

/-- The generated test function of an expansion result, when the result
has the expected two-item shape. -/
def testOf : Except String (List OutItem) → Option TestFn
  | Except.ok [OutItem.orig _, OutItem.test t] => some t
  | _ => none

/-- The shim emitted inside the generated test, if any. -/
def shimOf (r : Except String (List OutItem)) : Option Shim :=
  (testOf r).bind TestFn.shim

/-- The identifiers of the bare captured parameters of an argument
list. -/
def paramIdents (inputs : List FnArg) : List Ident :=
  inputs.filterMap
    (fun a =>
      match a with
      | FnArg.captured c =>
        match c.pat with
        | Pat.ident i => some i
        | Pat.complex _ => none
      | FnArg.notCaptured _ => none)

/-- The override list names the parameter `i`. -/
def overridesName (args : List (Ident × ExprTokens)) (i : Ident) : Bool :=
  args.any (fun p => p.1 == i)

/-- The parameter list the shim is expected to have: the captured
parameters whose identifiers are not named by any override, in original
order, keeping their pattern and type. -/
def specShimParams (args : List (Ident × ExprTokens)) (inputs : List FnArg) :
    List ArgCaptured :=
  inputs.filterMap
    (fun a =>
      match a with
      | FnArg.captured c =>
        match c.pat with
        | Pat.ident i => if overridesName args i then none else some c
        | Pat.complex _ => none
      | FnArg.notCaptured _ => none)

/-- The argument list of the call in the shim body: per original
parameter in order, the first matching override's expression if the
parameter's name is named by an override, else the forwarded
identifier. -/
def specCallArgs (args : List (Ident × ExprTokens)) (inputs : List FnArg) :
    List CallArg :=
  inputs.filterMap
    (fun a =>
      match a with
      | FnArg.captured c =>
        match c.pat with
        | Pat.ident i =>
          match findArg args i with
          | some p => some (CallArg.expr p.2)
          | none => some (CallArg.fwd i)
        | Pat.complex _ => none
      | FnArg.notCaptured _ => none)

/-- A non-captured argument contributes nothing to the expected shim
parameter list. -/
theorem specShimParams_cons_notCaptured (args : List (Ident × ExprTokens))
    (t : String) (rest : List FnArg) :
    specShimParams args (FnArg.notCaptured t :: rest) =
      specShimParams args rest := by
  simp [specShimParams, List.filterMap_cons]

/-- A captured argument with a complex pattern contributes nothing to
the expected shim parameter list. -/
theorem specShimParams_cons_complex (args : List (Ident × ExprTokens))
    (c : ArgCaptured) (t : String) (rest : List FnArg)
    (hc : c.pat = Pat.complex t) :
    specShimParams args (FnArg.captured c :: rest) =
      specShimParams args rest := by
  simp [specShimParams, List.filterMap_cons, hc]

/-- Unfolding the expected shim parameter list at a bare parameter. -/
theorem specShimParams_cons_ident (args : List (Ident × ExprTokens))
    (c : ArgCaptured) (i : Ident) (rest : List FnArg)
    (hc : c.pat = Pat.ident i) :
    specShimParams args (FnArg.captured c :: rest) =
      (if overridesName args i = true then specShimParams args rest
        else c :: specShimParams args rest) := by
  cases h : overridesName args i <;>
    simp [specShimParams, List.filterMap_cons, hc, h]

/-- A non-captured argument contributes nothing to the expected call
arguments. -/
theorem specCallArgs_cons_notCaptured (args : List (Ident × ExprTokens))
    (t : String) (rest : List FnArg) :
    specCallArgs args (FnArg.notCaptured t :: rest) =
      specCallArgs args rest := by
  simp [specCallArgs, List.filterMap_cons]

/-- A captured argument with a complex pattern contributes nothing to
the expected call arguments. -/
theorem specCallArgs_cons_complex (args : List (Ident × ExprTokens))
    (c : ArgCaptured) (t : String) (rest : List FnArg)
    (hc : c.pat = Pat.complex t) :
    specCallArgs args (FnArg.captured c :: rest) =
      specCallArgs args rest := by
  simp [specCallArgs, List.filterMap_cons, hc]

/-- Unfolding the expected call arguments at a bare parameter. -/
theorem specCallArgs_cons_ident (args : List (Ident × ExprTokens))
    (c : ArgCaptured) (i : Ident) (rest : List FnArg)
    (hc : c.pat = Pat.ident i) :
    specCallArgs args (FnArg.captured c :: rest) =
      (match findArg args i with
        | some p => CallArg.expr p.2
        | none => CallArg.fwd i) :: specCallArgs args rest := by
  cases hf : findArg args i <;>
    simp [specCallArgs, List.filterMap_cons, hc, hf]

/-- Membership of a name in the override list agrees with the success
of the `find` the code performs. -/
theorem overridesName_eq (args : List (Ident × ExprTokens)) (i : Ident) :
    overridesName args i = (findArg args i).isSome := by
  induction args with
  | nil => rfl
  | cons a rest ih =>
    simp only [overridesName, List.any_cons] at ih ⊢
    cases h : (a.1 == i) with
    | true => simp [findArg, h]
    | false => simp [findArg, h, ih]

/-- When every argument is a bare captured binding, the argument loop
succeeds and returns exactly the filtered parameter list and the
substituted call arguments. -/
theorem processArgs_eq_of_bare (args : List (Ident × ExprTokens)) :
    ∀ inputs : List FnArg, inputs.all bareParam = true →
      processArgs args inputs =
        Except.ok (specShimParams args inputs, specCallArgs args inputs) := by
  intro inputs
  induction inputs with
  | nil => intro _; rfl
  | cons a rest ih =>
    intro h
    rw [List.all_cons, Bool.and_eq_true] at h
    obtain ⟨ha, hrest⟩ := h
    cases a with
    | notCaptured t => simp [bareParam] at ha
    | captured c =>
      cases hc : c.pat with
      | complex t => rw [bareParam, hc] at ha; cases ha
      | ident i =>
        simp only [processArgs, hc, ih hrest, specShimParams, specCallArgs,
          List.filterMap_cons, overridesName_eq]
        cases hf : findArg args i <;>
          simp [hf, specShimParams, specCallArgs]

/-- The argument loop succeeds exactly when every argument is a bare
captured binding. -/
theorem processArgs_isOk (args : List (Ident × ExprTokens)) :
    ∀ inputs : List FnArg,
      isOkE (processArgs args inputs) = inputs.all bareParam := by
  intro inputs
  induction inputs with
  | nil => rfl
  | cons a rest ih =>
    cases a with
    | notCaptured t => simp [processArgs, isOkE, bareParam]
    | captured c =>
      cases hc : c.pat with
      | complex t => simp [processArgs, isOkE, bareParam, hc]
      | ident i =>
        cases hr : processArgs args rest with
        | error e =>
          rw [hr] at ih
          simp [processArgs, hc, hr, isOkE, bareParam, List.all_cons, ← ih]
        | ok p =>
          rw [hr] at ih
          cases hf : findArg args i <;>
            simp [processArgs, hc, hr, hf, isOkE, bareParam, List.all_cons, ← ih]

/-- Full characterization of a successful expansion when the override
list is non-empty and every parameter is a bare captured binding. -/
theorem expand_ok (opt : Bool) (invoc : Invoc) (f : ItemFn)
    (hb : f.inputs.all bareParam = true) (hne : invoc.args ≠ []) :
    assert_instr opt invoc (Item.fn f) =
      Except.ok [OutItem.orig (Item.fn f),
        OutItem.test
          { ignored := !opt,
            name := "assert_" ++ f.ident ++ "_" ++ invoc.instr,
            shim := some
              { attrs := f.attrs.filter (fun a => strStartsWith a.seg0 "target"),
                name := f.ident ++ "_shim",
                inputs := specShimParams invoc.args f.inputs,
                ret := f.output, callee := f.ident,
                callArgs := specCallArgs invoc.args f.inputs },
            addrTarget := f.ident ++ "_shim",
            displayTarget := f.ident ++ "_shim",
            instr := invoc.instr }] := by
  have hlen : (invoc.args.length == 0) = false := by
    cases h : invoc.args with
    | nil => exact absurd h hne
    | cons a l => rfl
  simp only [assert_instr, hlen, processArgs_eq_of_bare invoc.args f.inputs hb,
    Bool.false_eq_true, if_false]

/-- Full characterization of the expansion when the override list is
empty: no parameter validation happens and no shim is emitted. -/
theorem expand_ok_empty (opt : Bool) (invoc : Invoc) (f : ItemFn)
    (he : invoc.args = []) :
    assert_instr opt invoc (Item.fn f) =
      Except.ok [OutItem.orig (Item.fn f),
        OutItem.test
          { ignored := !opt,
            name := "assert_" ++ f.ident ++ "_" ++ invoc.instr,
            shim := none, addrTarget := f.ident, displayTarget := f.ident,
            instr := invoc.instr }] := by
  simp only [assert_instr, he, List.length_nil]
  rfl

/-- Success characterization of the whole macro: expansion succeeds
unless the item is not a function, or the override list is non-empty and
some parameter is not a bare captured binding. -/
theorem assert_instr_isOk (opt : Bool) (invoc : Invoc) (item : Item) :
    isOkE (assert_instr opt invoc item) =
      (isFnItem item && (invoc.args.isEmpty || !hasNonBareParam item)) := by
  cases item with
  | notFn t => rfl
  | fn f =>
    cases ha : invoc.args with
    | nil => simp [assert_instr, ha, isOkE, isFnItem]
    | cons a l =>
      have h := processArgs_isOk invoc.args f.inputs
      rw [ha] at h
      simp only [assert_instr, ha, List.length_cons]
      cases hp : processArgs (a :: l) f.inputs with
      | error e =>
        rw [hp] at h
        simp [isOkE, isFnItem, hasNonBareParam, ← h]
      | ok p =>
        rw [hp] at h
        simp [isOkE, isFnItem, hasNonBareParam, ← h]

/-- When every parameter is bare, the shim call has exactly one
argument per original parameter. -/
theorem specCallArgs_length (args : List (Ident × ExprTokens)) :
    ∀ inputs : List FnArg, inputs.all bareParam = true →
      (specCallArgs args inputs).length = inputs.length := by
  intro inputs
  induction inputs with
  | nil => intro _; rfl
  | cons a rest ih =>
    intro h
    rw [List.all_cons, Bool.and_eq_true] at h
    obtain ⟨ha, hrest⟩ := h
    cases a with
    | notCaptured t => simp [bareParam] at ha
    | captured c =>
      cases hc : c.pat with
      | complex t => rw [bareParam, hc] at ha; cases ha
      | ident i =>
        have ih' := ih hrest
        cases hf : findArg args i with
        | some p =>
          have hstep : specCallArgs args (FnArg.captured c :: rest) =
              CallArg.expr p.2 :: specCallArgs args rest := by
            simp [specCallArgs, List.filterMap_cons, hc, hf]
          rw [hstep, List.length_cons, ih', List.length_cons]
        | none =>
          have hstep : specCallArgs args (FnArg.captured c :: rest) =
              CallArg.fwd i :: specCallArgs args rest := by
            simp [specCallArgs, List.filterMap_cons, hc, hf]
          rw [hstep, List.length_cons, ih', List.length_cons]

/-- A successful expansion of a function item with a non-empty override
list implies every parameter is a bare captured binding. -/
theorem bare_of_isOk (opt : Bool) (invoc : Invoc) (f : ItemFn)
    (h : isOkE (assert_instr opt invoc (Item.fn f)) = true)
    (hne : invoc.args ≠ []) : f.inputs.all bareParam = true := by
  have hk := (assert_instr_isOk opt invoc (Item.fn f)).symm
  rw [h] at hk
  have hE : invoc.args.isEmpty = false := by
    cases hx : invoc.args with
    | nil => exact absurd hx hne
    | cons a l => rfl
  rw [hE] at hk
  simpa [isFnItem, hasNonBareParam] using hk

/-- An override strictly after another override with the same name never
affects the `find` for a parameter with a different name. -/
theorem findArg_middle (l1 l2 : List (Ident × ExprTokens)) (n i : Ident)
    (e : ExprTokens) (hni : (n == i) = false) :
    findArg (l1 ++ ((n, e) :: l2)) i = findArg (l1 ++ l2) i := by
  induction l1 with
  | nil => simp [findArg, hni]
  | cons a t ih =>
    cases h : (a.1 == i) with
    | true => simp [findArg, h]
    | false => simp [findArg, h, ih]

/-- Under the same per-identifier `find` results, the argument loop
gives the same answer. -/
theorem processArgs_congr (a1 a2 : List (Ident × ExprTokens))
    (hf : ∀ i : Ident, findArg a1 i = findArg a2 i) :
    ∀ inputs : List FnArg, processArgs a1 inputs = processArgs a2 inputs := by
  intro inputs
  induction inputs with
  | nil => rfl
  | cons a rest ih =>
    cases a with
    | notCaptured t => rfl
    | captured c =>
      cases hc : c.pat with
      | complex t => simp [processArgs, hc]
      | ident i => simp [processArgs, hc, ih, hf i]

/-- Removing a later duplicate of an already-listed override name does
not change any `find` result. -/
theorem findArg_dup (l1 l2 l3 : List (Ident × ExprTokens)) (n : Ident)
    (e1 e2 : ExprTokens) (i : Ident) :
    findArg (l1 ++ ((n, e1) :: (l2 ++ ((n, e2) :: l3)))) i =
      findArg (l1 ++ ((n, e1) :: (l2 ++ l3))) i := by
  induction l1 with
  | nil =>
    cases h : (n == i) with
    | true => simp [findArg, h]
    | false => simp [findArg, h, findArg_middle l2 l3 n i e2 h]
  | cons a t ih =>
    cases h : (a.1 == i) with
    | true => simp [findArg, h]
    | false => simp [findArg, h, ih]

/-- A name absent from the override names makes the `find` fail. -/
theorem findArg_none_of_not_mem_fst (l : List (Ident × ExprTokens))
    (n : Ident) (hn : n ∉ l.map Prod.fst) :
    findArg l n = none := by
  induction l with
  | nil => rfl
  | cons a t ih =>
    have hsplit : ¬(a.1 = n ∨ n ∈ t.map Prod.fst) := by
      simpa [List.map_cons, eq_comm] using hn
    push_neg at hsplit
    obtain ⟨hne, hrest⟩ := hsplit
    have hna : (a.1 == n) = false := by simp [hne]
    simp [findArg, hna, ih hrest]

/-- The shim call argument at the position of a bare parameter. -/
theorem specCallArgs_get? (args : List (Ident × ExprTokens)) :
    ∀ inputs : List FnArg, inputs.all bareParam = true →
      ∀ k : Nat, ∀ c : ArgCaptured, ∀ i : Ident,
        inputs[k]? = some (FnArg.captured c) → c.pat = Pat.ident i →
        (specCallArgs args inputs)[k]? =
          some (match findArg args i with
            | some p => CallArg.expr p.2
            | none => CallArg.fwd i) := by
  intro inputs
  induction inputs with
  | nil => intro _ k c i hk; simp at hk
  | cons a rest ih =>
    intro h k c i hk hpat
    rw [List.all_cons, Bool.and_eq_true] at h
    obtain ⟨ha, hrest⟩ := h
    cases a with
    | notCaptured t => simp [bareParam] at ha
    | captured c0 =>
      cases hc : c0.pat with
      | complex t => rw [bareParam, hc] at ha; cases ha
      | ident j =>
        cases k with
        | zero =>
          rw [List.getElem?_cons_zero] at hk
          have h1 : FnArg.captured c0 = FnArg.captured c := Option.some.inj hk
          have hcc : c0 = c := by injection h1
          rw [← hcc, hc] at hpat
          have hji : j = i := by injection hpat
          rw [← hji]
          cases hf : findArg args j <;>
            simp [specCallArgs, List.filterMap_cons, hc, hf]
        | succ k0 =>
          rw [List.getElem?_cons_succ] at hk
          have hstep : specCallArgs args (FnArg.captured c0 :: rest) =
              (match findArg args j with
                | some p => CallArg.expr p.2
                | none => CallArg.fwd j) :: specCallArgs args rest := by
            cases hf : findArg args j <;>
              simp [specCallArgs, List.filterMap_cons, hc, hf]
          rw [hstep, List.getElem?_cons_succ]
          exact ih hrest k0 c i hk hpat

/-- An override whose name is not a parameter identifier does not change
the shim parameter list. -/
theorem specShimParams_middle (l1 l2 : List (Ident × ExprTokens))
    (n : Ident) (e : ExprTokens) :
    ∀ inputs : List FnArg, n ∉ paramIdents inputs →
      specShimParams (l1 ++ ((n, e) :: l2)) inputs =
        specShimParams (l1 ++ l2) inputs := by
  intro inputs
  induction inputs with
  | nil => intro _; rfl
  | cons a rest ih =>
    intro hn
    cases a with
    | notCaptured t =>
      have hrest : n ∉ paramIdents rest := by
        simpa [paramIdents, List.filterMap_cons] using hn
      rw [specShimParams_cons_notCaptured, specShimParams_cons_notCaptured,
        ih hrest]
    | captured c =>
      cases hc : c.pat with
      | complex t =>
        have hrest : n ∉ paramIdents rest := by
          simpa [paramIdents, List.filterMap_cons, hc] using hn
        rw [specShimParams_cons_complex _ c t rest hc,
          specShimParams_cons_complex _ c t rest hc, ih hrest]
      | ident i =>
        have hsplit : ¬(n = i ∨ n ∈ paramIdents rest) := by
          simpa [paramIdents, List.filterMap_cons, hc] using hn
        push_neg at hsplit
        obtain ⟨hne, hrest⟩ := hsplit
        have hni : (n == i) = false := by simp [hne]
        have hov : overridesName (l1 ++ ((n, e) :: l2)) i =
            overridesName (l1 ++ l2) i := by
          simp [overridesName, List.any_append, List.any_cons, hni]
        rw [specShimParams_cons_ident _ c i rest hc,
          specShimParams_cons_ident _ c i rest hc, hov, ih hrest]

/-- An override whose name is not a parameter identifier does not change
the shim call arguments. -/
theorem specCallArgs_middle (l1 l2 : List (Ident × ExprTokens))
    (n : Ident) (e : ExprTokens) :
    ∀ inputs : List FnArg, n ∉ paramIdents inputs →
      specCallArgs (l1 ++ ((n, e) :: l2)) inputs =
        specCallArgs (l1 ++ l2) inputs := by
  intro inputs
  induction inputs with
  | nil => intro _; rfl
  | cons a rest ih =>
    intro hn
    cases a with
    | notCaptured t =>
      have hrest : n ∉ paramIdents rest := by
        simpa [paramIdents, List.filterMap_cons] using hn
      rw [specCallArgs_cons_notCaptured, specCallArgs_cons_notCaptured,
        ih hrest]
    | captured c =>
      cases hc : c.pat with
      | complex t =>
        have hrest : n ∉ paramIdents rest := by
          simpa [paramIdents, List.filterMap_cons, hc] using hn
        rw [specCallArgs_cons_complex _ c t rest hc,
          specCallArgs_cons_complex _ c t rest hc, ih hrest]
      | ident i =>
        have hsplit : ¬(n = i ∨ n ∈ paramIdents rest) := by
          simpa [paramIdents, List.filterMap_cons, hc] using hn
        push_neg at hsplit
        obtain ⟨hne, hrest⟩ := hsplit
        have hni : (n == i) = false := by simp [hne]
        have hfind := findArg_middle l1 l2 n i e hni
        rw [specCallArgs_cons_ident _ c i rest hc,
          specCallArgs_cons_ident _ c i rest hc, hfind, ih hrest]

/-- Under the same per-identifier `find` results, the expected shim
parameter lists agree. -/
theorem specShimParams_congr (a1 a2 : List (Ident × ExprTokens))
    (hf : ∀ i : Ident, findArg a1 i = findArg a2 i) :
    ∀ inputs : List FnArg,
      specShimParams a1 inputs = specShimParams a2 inputs := by
  intro inputs
  induction inputs with
  | nil => rfl
  | cons a rest ih =>
    cases a with
    | notCaptured t =>
      rw [specShimParams_cons_notCaptured, specShimParams_cons_notCaptured, ih]
    | captured c =>
      cases hc : c.pat with
      | complex t =>
        rw [specShimParams_cons_complex a1 c t rest hc,
          specShimParams_cons_complex a2 c t rest hc, ih]
      | ident i =>
        have hov : overridesName a1 i = overridesName a2 i := by
          rw [overridesName_eq, overridesName_eq, hf i]
        rw [specShimParams_cons_ident a1 c i rest hc,
          specShimParams_cons_ident a2 c i rest hc, hov, ih]

/-- Under the same per-identifier `find` results, the expected call
arguments agree. -/
theorem specCallArgs_congr (a1 a2 : List (Ident × ExprTokens))
    (hf : ∀ i : Ident, findArg a1 i = findArg a2 i) :
    ∀ inputs : List FnArg,
      specCallArgs a1 inputs = specCallArgs a2 inputs := by
  intro inputs
  induction inputs with
  | nil => rfl
  | cons a rest ih =>
    cases a with
    | notCaptured t =>
      rw [specCallArgs_cons_notCaptured, specCallArgs_cons_notCaptured, ih]
    | captured c =>
      cases hc : c.pat with
      | complex t =>
        rw [specCallArgs_cons_complex a1 c t rest hc,
          specCallArgs_cons_complex a2 c t rest hc, ih]
      | ident i =>
        rw [specCallArgs_cons_ident a1 c i rest hc,
          specCallArgs_cons_ident a2 c i rest hc, hf i, ih]

/-- The `find` for a name whose first override occurrence is `(n, e1)`
returns exactly that occurrence. -/
theorem findArg_first (l1 : List (Ident × ExprTokens)) (n : Ident)
    (e1 : ExprTokens) (rest : List (Ident × ExprTokens))
    (hfirst : n ∉ l1.map Prod.fst) :
    findArg (l1 ++ ((n, e1) :: rest)) n = some (n, e1) := by
  induction l1 with
  | nil => simp [findArg]
  | cons a t ih =>
    have hsplit : ¬(a.1 = n ∨ n ∈ t.map Prod.fst) := by
      simpa [List.map_cons, eq_comm] using hfirst
    push_neg at hsplit
    obtain ⟨hne, hrest⟩ := hsplit
    have hna : (a.1 == n) = false := by simp [hne]
    simp [findArg, hna, ih hrest]

/-- Rendering then parsing recovers the override list (helper for the
grammar round-trip). -/
theorem parseArgs_render (args : List (Ident × ExprTokens)) :
    parseArgs (args.flatMap
      (fun p => [AttrTok.comma, AttrTok.ident p.1, AttrTok.eq,
        AttrTok.expr p.2])) = (args, []) := by
  induction args with
  | nil => rfl
  | cons p rest ih =>
    rw [List.flatMap_cons]
    simp only [List.cons_append, List.nil_append, List.append_eq,
      parseArgs, ih]

/-- The spec's worked example: `fn add(a: i32, b: i32) -> i32` carrying
one target-prefixed attribute and one other attribute. -/
def exAdd : ItemFn :=
  { attrs := [{ seg0 := "target_feature", restTokens := "sse2" },
              { seg0 := "inline", restTokens := "" }],
    ident := "add",
    inputs := [FnArg.captured { pat := Pat.ident "a", ty := "i32" },
               FnArg.captured { pat := Pat.ident "b", ty := "i32" }],
    output := "i32" }

/-- A function whose only parameter is destructured (a tuple pattern),
not a bare identifier. -/
def exDestructured : ItemFn :=
  { attrs := [], ident := "bad",
    inputs := [FnArg.captured
      { pat := Pat.complex "(x, y)", ty := "(i32, i32)" }],
    output := "i32" }


/-- C1 counterexample: a function whose only parameter is destructured,
invoked with an empty override list, expands successfully — refuting
the claim that such an invocation aborts whether or not overrides are
supplied. -/
theorem C1_counterexample :
    hasNonBareParam (Item.fn exDestructured) = true ∧
    isOkE (assert_instr false { instr := "nop", args := [] }
      (Item.fn exDestructured)) = true :=
  ⟨rfl, rfl⟩

/-- C1 (amended): expansion aborts exactly when the annotated item is
not a function declaration, or the overrides list is non-empty and some
parameter pattern is not a bare identifier.  A non-function item always
aborts; a function with a destructured parameter aborts only when the
invocation supplies at least one override, because parameter patterns
are inspected only while synthesizing the shim. -/
theorem C1_fatal_on_invalid_amended (opt : Bool) (invoc : Invoc)
    (item : Item) :
    isOkE (assert_instr opt invoc item) = false ↔
      (isFnItem item = false ∨
        (invoc.args.isEmpty = false ∧ hasNonBareParam item = true)) := by
  rw [assert_instr_isOk]
  cases h1 : isFnItem item <;> cases h2 : invoc.args.isEmpty <;>
    cases h3 : hasNonBareParam item <;> simp [h1, h2, h3]

/-- C2: for a non-empty override list on a function whose parameters
are all bare captured bindings, the shim's parameter list is exactly
the original parameters whose names are not overridden, in original
order with original identifier and type, and the shim's attributes are
exactly the original's attributes whose first path segment starts with
"target", in original order. -/
theorem C2_shim_signature (opt : Bool) (invoc : Invoc) (f : ItemFn)
    (hb : f.inputs.all bareParam = true) (hne : invoc.args ≠ []) :
    (shimOf (assert_instr opt invoc (Item.fn f))).map Shim.inputs =
      some (specShimParams invoc.args f.inputs) ∧
    (shimOf (assert_instr opt invoc (Item.fn f))).map Shim.attrs =
      some (f.attrs.filter (fun a => strStartsWith a.seg0 "target")) := by
  rw [expand_ok opt invoc f hb hne]
  exact ⟨rfl, rfl⟩

/-- C2 witness at the spec's worked example. -/
theorem C2_shim_signature_witness :
    (shimOf (assert_instr false { instr := "addl", args := [("b", "1")] }
        (Item.fn exAdd))).map Shim.inputs =
      some (specShimParams [("b", "1")] exAdd.inputs) ∧
    (shimOf (assert_instr false { instr := "addl", args := [("b", "1")] }
        (Item.fn exAdd))).map Shim.attrs =
      some (exAdd.attrs.filter (fun a => strStartsWith a.seg0 "target")) :=
  C2_shim_signature false { instr := "addl", args := [("b", "1")] } exAdd
    (by decide) (by decide)

/-- C3: the shim's body is a single call to the original function with
one argument per original parameter in original order — the override
expression where the parameter is overridden, the forwarded identifier
otherwise — and the shim's return type is the original's. -/
theorem C3_shim_body (opt : Bool) (invoc : Invoc) (f : ItemFn)
    (hb : f.inputs.all bareParam = true) (hne : invoc.args ≠ []) :
    (shimOf (assert_instr opt invoc (Item.fn f))).map Shim.callee =
      some f.ident ∧
    (shimOf (assert_instr opt invoc (Item.fn f))).map Shim.callArgs =
      some (specCallArgs invoc.args f.inputs) ∧
    (specCallArgs invoc.args f.inputs).length = f.inputs.length ∧
    (shimOf (assert_instr opt invoc (Item.fn f))).map Shim.ret =
      some f.output := by
  rw [expand_ok opt invoc f hb hne]
  exact ⟨rfl, rfl, specCallArgs_length invoc.args f.inputs hb, rfl⟩

/-- C3 witness at the spec's worked example. -/
theorem C3_shim_body_witness :
    (shimOf (assert_instr false { instr := "addl", args := [("b", "1")] }
        (Item.fn exAdd))).map Shim.callee = some exAdd.ident ∧
    (shimOf (assert_instr false { instr := "addl", args := [("b", "1")] }
        (Item.fn exAdd))).map Shim.callArgs =
      some (specCallArgs [("b", "1")] exAdd.inputs) ∧
    (specCallArgs [("b", "1")] exAdd.inputs).length = exAdd.inputs.length ∧
    (shimOf (assert_instr false { instr := "addl", args := [("b", "1")] }
        (Item.fn exAdd))).map Shim.ret = some exAdd.output :=
  C3_shim_body false { instr := "addl", args := [("b", "1")] } exAdd
    (by decide) (by decide)

/-- C4: parsing a well-formed argument list
`(instr, a = e1, b = e2, ...)` yields exactly the instruction name and
the override pairs in written order, retaining every pair including
later duplicates of the same name. -/
theorem C4_grammar_roundtrip (instr : Ident)
    (args : List (Ident × ExprTokens)) :
    parseInvoc (renderInvoc instr args) =
      some { instr := instr, args := args } := by
  simp [parseInvoc, renderInvoc, parseArgs_render]

/-- C5: with an empty override list, no shim is emitted and both the
address argument and the display-name argument of the generated
assertion are the original function itself. -/
theorem C5_no_override_identity (opt : Bool) (invoc : Invoc) (f : ItemFn)
    (he : invoc.args = []) :
    (testOf (assert_instr opt invoc (Item.fn f))).map TestFn.shim =
      some none ∧
    (testOf (assert_instr opt invoc (Item.fn f))).map TestFn.addrTarget =
      some f.ident ∧
    (testOf (assert_instr opt invoc (Item.fn f))).map
        TestFn.displayTarget = some f.ident := by
  rw [expand_ok_empty opt invoc f he]
  exact ⟨rfl, rfl, rfl⟩

/-- C5 witness. -/
theorem C5_no_override_identity_witness :
    (testOf (assert_instr false { instr := "nop", args := [] }
        (Item.fn exAdd))).map TestFn.shim = some none ∧
    (testOf (assert_instr false { instr := "nop", args := [] }
        (Item.fn exAdd))).map TestFn.addrTarget = some exAdd.ident ∧
    (testOf (assert_instr false { instr := "nop", args := [] }
        (Item.fn exAdd))).map TestFn.displayTarget = some exAdd.ident :=
  C5_no_override_identity false { instr := "nop", args := [] } exAdd rfl

/-- C6: every successful expansion names the generated test
`assert_<fn>_<instr>`, and whenever a shim is present its name is
`<fn>_shim`. -/
theorem C6_naming (opt : Bool) (invoc : Invoc) (f : ItemFn)
    (h : isOkE (assert_instr opt invoc (Item.fn f)) = true) :
    (testOf (assert_instr opt invoc (Item.fn f))).map TestFn.name =
      some ("assert_" ++ f.ident ++ "_" ++ invoc.instr) ∧
    (shimOf (assert_instr opt invoc (Item.fn f))).map Shim.name =
      (shimOf (assert_instr opt invoc (Item.fn f))).map
        (fun _ => f.ident ++ "_shim") := by
  cases ha : invoc.args with
  | nil =>
    rw [expand_ok_empty opt invoc f ha]
    exact ⟨rfl, rfl⟩
  | cons a l =>
    have hne : invoc.args ≠ [] := by rw [ha]; simp
    have hb := bare_of_isOk opt invoc f h hne
    rw [expand_ok opt invoc f hb hne]
    exact ⟨rfl, rfl⟩

/-- C6 witness, at an invocation that synthesizes a shim. -/
theorem C6_naming_witness :
    (testOf (assert_instr false { instr := "addl", args := [("b", "1")] }
        (Item.fn exAdd))).map TestFn.name =
      some ("assert_" ++ exAdd.ident ++ "_" ++
        ({ instr := "addl", args := [("b", "1")] } : Invoc).instr) ∧
    (shimOf (assert_instr false { instr := "addl", args := [("b", "1")] }
        (Item.fn exAdd))).map Shim.name =
      (shimOf (assert_instr false { instr := "addl", args := [("b", "1")] }
        (Item.fn exAdd))).map (fun _ => exAdd.ident ++ "_shim") :=
  C6_naming false { instr := "addl", args := [("b", "1")] } exAdd rfl

/-- C7: every successful expansion emits exactly the unmodified
original item first, followed by exactly one generated test function —
the macro is strictly additive. -/
theorem C7_additive (opt : Bool) (invoc : Invoc) (item : Item)
    (h : isOkE (assert_instr opt invoc item) = true) :
    ∃ t : TestFn, assert_instr opt invoc item =
      Except.ok [OutItem.orig item, OutItem.test t] := by
  cases item with
  | notFn tk => simp [assert_instr, isOkE] at h
  | fn f =>
    cases ha : invoc.args with
    | nil => exact ⟨_, expand_ok_empty opt invoc f ha⟩
    | cons a l =>
      have hne : invoc.args ≠ [] := by rw [ha]; simp
      have hb := bare_of_isOk opt invoc f h hne
      exact ⟨_, expand_ok opt invoc f hb hne⟩

/-- C7 witness. -/
theorem C7_additive_witness :
    ∃ t : TestFn,
      assert_instr false { instr := "addl", args := [("b", "1")] }
          (Item.fn exAdd) =
        Except.ok [OutItem.orig (Item.fn exAdd), OutItem.test t] :=
  C7_additive false { instr := "addl", args := [("b", "1")] }
    (Item.fn exAdd) rfl

/-- C8: the generated test carries the ignore marker exactly when the
`optimized` build-mode signal is not set. -/
theorem C8_skip_marker (opt : Bool) (invoc : Invoc) (item : Item)
    (h : isOkE (assert_instr opt invoc item) = true) :
    (testOf (assert_instr opt invoc item)).map TestFn.ignored =
      some (!opt) := by
  cases item with
  | notFn tk => simp [assert_instr, isOkE] at h
  | fn f =>
    cases ha : invoc.args with
    | nil => rw [expand_ok_empty opt invoc f ha]; rfl
    | cons a l =>
      have hne : invoc.args ≠ [] := by rw [ha]; simp
      have hb := bare_of_isOk opt invoc f h hne
      rw [expand_ok opt invoc f hb hne]; rfl

/-- C8 witness, with the optimized signal set (no skip marker). -/
theorem C8_skip_marker_witness :
    (testOf (assert_instr true { instr := "addl", args := [("b", "1")] }
        (Item.fn exAdd))).map TestFn.ignored = some (!true) :=
  C8_skip_marker true { instr := "addl", args := [("b", "1")] }
    (Item.fn exAdd) rfl

/-- C9: an override whose name matches no parameter does not make
expansion fail, and it contributes to neither the shim's parameter list
nor the shim's call arguments: the emitted lists equal the ones for the
invocation with that override removed. -/
theorem C9_silent_unused (opt : Bool) (instr n : Ident) (e : ExprTokens)
    (l1 l2 : List (Ident × ExprTokens)) (f : ItemFn)
    (hb : f.inputs.all bareParam = true)
    (hn : n ∉ paramIdents f.inputs) :
    isOkE (assert_instr opt { instr := instr, args := l1 ++ ((n, e) :: l2) }
      (Item.fn f)) = true ∧
    (shimOf (assert_instr opt
        { instr := instr, args := l1 ++ ((n, e) :: l2) }
        (Item.fn f))).map Shim.inputs =
      some (specShimParams (l1 ++ l2) f.inputs) ∧
    (shimOf (assert_instr opt
        { instr := instr, args := l1 ++ ((n, e) :: l2) }
        (Item.fn f))).map Shim.callArgs =
      some (specCallArgs (l1 ++ l2) f.inputs) := by
  have hne : (l1 ++ ((n, e) :: l2) : List (Ident × ExprTokens)) ≠ [] := by
    simp
  refine ⟨?_, ?_, ?_⟩
  · rw [expand_ok opt { instr := instr, args := l1 ++ ((n, e) :: l2) } f
      hb hne]
    rfl
  · rw [expand_ok opt { instr := instr, args := l1 ++ ((n, e) :: l2) } f
      hb hne]
    show some (specShimParams (l1 ++ ((n, e) :: l2)) f.inputs) =
      some (specShimParams (l1 ++ l2) f.inputs)
    rw [specShimParams_middle l1 l2 n e f.inputs hn]
  · rw [expand_ok opt { instr := instr, args := l1 ++ ((n, e) :: l2) } f
      hb hne]
    show some (specCallArgs (l1 ++ ((n, e) :: l2)) f.inputs) =
      some (specCallArgs (l1 ++ l2) f.inputs)
    rw [specCallArgs_middle l1 l2 n e f.inputs hn]

/-- C9 witness: override "zz" names no parameter of `add`. -/
theorem C9_silent_unused_witness :
    isOkE (assert_instr false
      { instr := "addl", args := [("b", "1")] ++ (("zz", "9") :: []) }
      (Item.fn exAdd)) = true ∧
    (shimOf (assert_instr false
        { instr := "addl", args := [("b", "1")] ++ (("zz", "9") :: []) }
        (Item.fn exAdd))).map Shim.inputs =
      some (specShimParams ([("b", "1")] ++ []) exAdd.inputs) ∧
    (shimOf (assert_instr false
        { instr := "addl", args := [("b", "1")] ++ (("zz", "9") :: []) }
        (Item.fn exAdd))).map Shim.callArgs =
      some (specCallArgs ([("b", "1")] ++ []) exAdd.inputs) :=
  C9_silent_unused false "addl" "zz" "9" [("b", "1")] [] exAdd
    (by decide) (by decide)

/-- C10: when the override list names the same parameter more than
once, the emitted code equals that of the invocation with the later
duplicate removed, and the call argument at the matching parameter's
position is the expression of the first occurrence. -/
theorem C10_first_override_wins (opt : Bool) (instr n : Ident)
    (e1 e2 : ExprTokens) (l1 l2 l3 : List (Ident × ExprTokens))
    (f : ItemFn) (k : Nat) (c : ArgCaptured)
    (hb : f.inputs.all bareParam = true)
    (hfirst : n ∉ l1.map Prod.fst)
    (hk : f.inputs[k]? = some (FnArg.captured c))
    (hpat : c.pat = Pat.ident n) :
    assert_instr opt
        { instr := instr,
          args := l1 ++ ((n, e1) :: (l2 ++ ((n, e2) :: l3))) }
        (Item.fn f) =
      assert_instr opt
        { instr := instr, args := l1 ++ ((n, e1) :: (l2 ++ l3)) }
        (Item.fn f) ∧
    (shimOf (assert_instr opt
        { instr := instr,
          args := l1 ++ ((n, e1) :: (l2 ++ ((n, e2) :: l3))) }
        (Item.fn f))).bind (fun s => s.callArgs[k]?) =
      some (CallArg.expr e1) := by
  have hneL : (l1 ++ ((n, e1) :: (l2 ++ ((n, e2) :: l3)))
      : List (Ident × ExprTokens)) ≠ [] := by simp
  have hneR : (l1 ++ ((n, e1) :: (l2 ++ l3))
      : List (Ident × ExprTokens)) ≠ [] := by simp
  have hfq : ∀ i : Ident,
      findArg (l1 ++ ((n, e1) :: (l2 ++ ((n, e2) :: l3)))) i =
        findArg (l1 ++ ((n, e1) :: (l2 ++ l3))) i :=
    fun i => findArg_dup l1 l2 l3 n e1 e2 i
  constructor
  · rw [expand_ok opt
        { instr := instr,
          args := l1 ++ ((n, e1) :: (l2 ++ ((n, e2) :: l3))) } f hb hneL,
      expand_ok opt
        { instr := instr, args := l1 ++ ((n, e1) :: (l2 ++ l3)) } f hb hneR,
      specShimParams_congr _ _ hfq f.inputs,
      specCallArgs_congr _ _ hfq f.inputs]
  · rw [expand_ok opt
        { instr := instr,
          args := l1 ++ ((n, e1) :: (l2 ++ ((n, e2) :: l3))) } f hb hneL]
    have hget := specCallArgs_get?
      (l1 ++ ((n, e1) :: (l2 ++ ((n, e2) :: l3)))) f.inputs hb k c n
      hk hpat
    rw [findArg_first l1 n e1 (l2 ++ ((n, e2) :: l3)) hfirst] at hget
    exact hget

/-- C10 witness: `b` is overridden twice; the first expression wins and
dropping the duplicate leaves the output unchanged. -/
theorem C10_first_override_wins_witness :
    assert_instr false
        { instr := "addl",
          args := [("a", "7")] ++ (("b", "1") :: ([] ++ (("b", "2") :: []))) }
        (Item.fn exAdd) =
      assert_instr false
        { instr := "addl", args := [("a", "7")] ++ (("b", "1") :: ([] ++ [])) }
        (Item.fn exAdd) ∧
    (shimOf (assert_instr false
        { instr := "addl",
          args := [("a", "7")] ++ (("b", "1") :: ([] ++ (("b", "2") :: []))) }
        (Item.fn exAdd))).bind (fun s => s.callArgs[1]?) =
      some (CallArg.expr "1") :=
  C10_first_override_wins false "addl" "b" "1" "2" [("a", "7")] [] []
    exAdd 1 { pat := Pat.ident "b", ty := "i32" }
    (by decide) (by decide) rfl rfl

end AssertInstr
